import Mathlib

/-!
Verification of the `peers` messaging core of baselayer-io/KomodoPlatform
(`src/mm2src/peers/peers.rs`).

The Rust source is shallowly embedded: bytes are `Nat` (a `u8` value is
always `< 256`; where the source truncates to `u8` the embedding masks with
`% 256`), byte strings (`Vec<u8>`, `ByteBuf`, `bits256`) are `List Nat`,
hash maps are association lists with unique keys, and wall-clock instants
(`f64` from `now_float`) are `ℚ`.  Functions keep the source's names where
Lean allows it.
-/

namespace Peers

abbrev Bytes := List Nat

/-! ## CRC-32 (crate `crc`, `crc32::update` with `IEEE_TABLE`)

`split_and_put`, `incoming_ping` and the DHT-alert callback all call
`crc::crc32::update (value, &IEEE_TABLE, bytes)`.  The crate computes
`value = !value; for b in bytes { value = table[(value as u8 ^ b) as usize] ^ (value >> 8) }; !value`
where `IEEE_TABLE[i]` is the 8-fold shift of `i` with polynomial
`0xedb88320`.  `u32` values are `Nat`s below `2^32`. -/

/-- One step of the CRC-32 table generator: shift right, xor the IEEE
polynomial `0xedb88320` in when the low bit was set. -/
def crcShift (v : Nat) : Nat :=
  if v % 2 = 1 then (v / 2) ^^^ 0xedb88320 else v / 2

/-- `IEEE_TABLE[i % 256]`: eight `crcShift` steps applied to the byte `i`.
The source indexes the table with a `u8`, hence the `% 256`. -/
def ieeeTable (i : Nat) : Nat := crcShift^[8] (i % 256)

/-- `crc::crc32::update (value, &IEEE_TABLE, bytes)`.  `!value` on `u32`
is `xor 0xFFFFFFFF`; `value as u8` is `% 256`; `value >> 8` is `/ 256`. -/
def crcUpdate (value : Nat) (bytes : Bytes) : Nat :=
  (bytes.foldl (fun v b => ieeeTable ((v % 256) ^^^ (b % 256)) ^^^ v / 256)
    (value ^^^ 0xFFFFFFFF)) ^^^ 0xFFFFFFFF

/-- The chunk checksum of `split_and_put` / `incoming_ping` / the DHT
callback: CRC over the chunk body, then the 32-byte peer key (`seed`),
then the subject salt, seeded with the 1-based chunk index. -/
def crcChunk (idx : Nat) (body seed salt : Bytes) : Nat :=
  crcUpdate (crcUpdate (crcUpdate idx body) seed) salt

/-- `byteorder`'s `write_u32::<BigEndian>`: the four big-endian bytes of a
`u32`. -/
def be4 (n : Nat) : Bytes :=
  [n / 2 ^ 24 % 256, n / 2 ^ 16 % 256, n / 2 ^ 8 % 256, n % 256]

/-- `byteorder`'s `read_u32::<BigEndian>` over a 4-byte slice. -/
def beRead4 (l : Bytes) : Nat := l.foldl (fun a b => a * 256 + b % 256) 0

/-! ## Chunking (`split_and_put`, lines 571-639)

`data.chunks (992)` of the `slice` API: consecutive sub-slices of at most
`k` elements, the last one possibly shorter; an empty slice yields no
chunks. -/

/-- Rust's `slice::chunks (k)` as a list function. -/
def chunksOf (k : Nat) (l : List Nat) : List (List Nat) :=
  if h : k = 0 ∨ l = [] then [] else l.take k :: chunksOf k (l.drop k)
termination_by l.length
decreasing_by
  push_neg at h
  have hk : 0 < k := Nat.pos_of_ne_zero h.1
  have hl : 0 < l.length := List.length_pos.mpr h.2
  simp only [List.length_drop]
  omega

/-- The number of 992-byte chunks: the source computes
`(len) / 992 + if (len) % 992 != 0 {1} else {0}` over the length of the
payload plus the prepended count byte. -/
def numberOfChunks (len : Nat) : Nat :=
  len / 992 + if len % 992 ≠ 0 then 1 else 0

/-! ## The chunk encoder (`split_and_put`, lines 582-609)

Prepend the chunk count, split into 992-byte chunks, append the big-endian
CRC-32 to each chunk.  `None` models the source's capacity-error early
return (`number_of_chunks > max_chunks`, `max_chunks = 253`). -/

/-- The per-chunk CRC appending loop of `split_and_put` (1-based index). -/
def chunksWithCrc (seed salt : Bytes) : Nat → List (List Nat) → List Bytes
  | _, [] => []
  | idx, c :: cs =>
    (c ++ be4 (crcChunk idx c seed salt)) :: chunksWithCrc seed salt (idx + 1) cs

/-- The chunking part of `split_and_put`: count-byte prefix, 992-byte
split, per-chunk CRC.  `none` is the "payload is too large" return. -/
def encodeChunks (payload seed salt : Bytes) : Option (List Bytes) :=
  let n := numberOfChunks (payload.length + 1)
  if n > 253 then none
  else some (chunksWithCrc seed salt 1 (chunksOf 992 (n :: payload)))

/-! ## The chunk decoder (receiving side)

`incoming_ping` (lines 866-882) and the DHT-alert callback (lines
1023-1038) verify each chunk the same way: require at least 5 bytes, split
off the trailing 4-byte big-endian checksum, recompute the CRC over
`(index, body, our_public_key, subject_salt)`, reject on mismatch.
Reassembly (`get_pieces_scheduler_en`, lines 757-760) concatenates the
stored chunk payloads in index order; the count byte was removed from
chunk #1 on admission. -/

/-- Checksum verification of a single chunk; `some body` is the stored
chunk payload (checksum stripped). -/
def verifyChunk (idx : Nat) (seed salt : Bytes) (chunk : Bytes) : Option Bytes :=
  if chunk.length < 5 then none
  else
    let body := chunk.take (chunk.length - 4)
    let checksum := beRead4 (chunk.drop (chunk.length - 4))
    if checksum = crcChunk idx body seed salt then some body else none

/-- Verify a chunk sequence with 1-based indices. -/
def verifyChunks (seed salt : Bytes) : Nat → List Bytes → Option (List Bytes)
  | _, [] => some []
  | idx, c :: cs =>
    match verifyChunk idx seed salt c, verifyChunks seed salt (idx + 1) cs with
    | some b, some bs => some (b :: bs)
    | _, _ => none

/-- The receiving side over a full chunk sequence: verify and strip every
CRC, take the chunk count from chunk #1's leading byte (admission resizes
the slot vector to it, so it must equal the number of chunks for the very
same chunks to reassemble), strip that byte, concatenate bodies in index
order. -/
def decodeChunks (seed salt : Bytes) (chunks : List Bytes) : Option Bytes :=
  match verifyChunks seed salt 1 chunks with
  | none => none
  | some [] => none
  | some (b1 :: rest) =>
    match b1 with
    | [] => none
    | count :: b1tail =>
      if count = chunks.length then some (b1tail ++ rest.flatten) else none

/-! ## Data model of the trans registry (`peers.rs` lines 201-246, 362-407)

`HashMap`s are embedded as association lists with unique keys; a
`HashMap<SocketAddr, ()>` (the endpoint set of a `Friend`) is a list of
distinct endpoints; the `Weak<SendHandler>` of a `Package` is embedded as
the boolean outcome of `Weak::upgrade` (alive or dropped). -/

/-- `std::net::SocketAddr` (only its identity matters to the core). -/
structure SockAddr where
  ip : String
  port : Nat
deriving DecidableEq

/-- Association-list lookup (`HashMap::get`). -/
def lookupA {α β : Type} [DecidableEq α] (k : α) : List (α × β) → Option β
  | [] => none
  | (a, b) :: m => if a = k then some b else lookupA k m

/-- Association-list `entry(k).or_insert_with(default)` followed by an
in-place modification of the entry. -/
def updateA {α β : Type} [DecidableEq α] (k : α) (f : β → β) (d : β) :
    List (α × β) → List (α × β)
  | [] => [(k, f d)]
  | (a, b) :: m => if a = k then (a, f b) :: m else (a, b) :: updateA k f d m

/-- The `mm` ping payload (wire record; `ByteBuf`s are byte lists).  The
source field `from` is a Lean keyword, hence `fromPk`. -/
structure MmPayload where
  id : Bytes
  fromPk : Bytes
  pong : Nat
  salt : Option Bytes
  chunk : Option Bytes
deriving DecidableEq

/-- `PayloadOutMeta` (derive `Default` in the source: all zeroes). -/
structure PayloadOutMeta where
  dht_put_invoked : ℚ
  pings : Nat
  pongs : Nat
deriving DecidableEq, Inhabited

/-- The target of a `Package`:
`Either<(bits256, Weak<SendHandler>), SocketAddr>`. -/
inductive Dest where
  | peer (seed : Bytes) (sendHandlerAlive : Bool)
  | sock (endpoint : SockAddr)
deriving DecidableEq

/-- A group of ping packets we want to deliver.  The source field `to` is
a Lean keyword, hence `dest`. -/
structure Package where
  payloads : List (MmPayload × PayloadOutMeta)
  dest : Dest
deriving DecidableEq

/-- A `Friend`: the set of endpoints known for a peer. -/
structure Friend where
  endpoints : List SockAddr
deriving DecidableEq, Inhabited

/-- The retransmission registry `TransMeta`. -/
structure TransMeta where
  friends : List (Bytes × Friend)
  packages : List Package
  id_seq : Nat
deriving DecidableEq, Inhabited

/-- `byteorder`'s `write_u64::<BigEndian>`. -/
def be8 (n : Nat) : Bytes :=
  [n / 2 ^ 56 % 256, n / 2 ^ 48 % 256, n / 2 ^ 40 % 256, n / 2 ^ 32 % 256,
   n / 2 ^ 24 % 256, n / 2 ^ 16 % 256, n / 2 ^ 8 % 256, n % 256]

/-- `MmPayload::next_id`: bump the wrapping 16-bit `id_seq`, combine with
48 random bits, serialize big-endian.  The random draw of
`thread_rng().next_u64()` is an explicit argument. -/
def MmPayload.next_id (trans : TransMeta) (rand : Nat) : TransMeta × Bytes :=
  let id_seq := (trans.id_seq + 1) % 2 ^ 16
  let id := (id_seq <<< 48) ||| (rand &&& 0xFFFFFFFFFFFF)
  ({trans with id_seq := id_seq}, be8 id)

/-- The payload-building loop of `split_and_put` (lines 625-636): one
`MmPayload` per chunk, salted with the 1-based chunk index byte, with a
fresh id (the per-chunk random draws are the `rands` argument). -/
def buildPayloads (fromPk saltBase : Bytes) (rands : Nat → Nat) :
    TransMeta → Nat → List Bytes → TransMeta × List (MmPayload × PayloadOutMeta)
  | tr, _, [] => (tr, [])
  | tr, idx, c :: cs =>
    let step := MmPayload.next_id tr (rands idx)
    let rest := buildPayloads fromPk saltBase rands step.1 (idx + 1) cs
    (rest.1,
      ({id := step.2, fromPk := fromPk, pong := 0,
        salt := some (saltBase ++ [idx]), chunk := some c},
        (default : PayloadOutMeta)) :: rest.2)

/-- `split_and_put` (lines 571-639), as a transformer of the trans
registry: encode the payload into chunks and append one package addressed
to the peer key; on capacity error (`number_of_chunks > max_chunks`) log
and return with the registry untouched.  (The global `PUT_SHUTTLES`
garbage collection at line 614 touches no per-context state and is not
part of the registry.) -/
def split_and_put (trans : TransMeta) (fromPk seed salt data : Bytes)
    (sendHandlerAlive : Bool) (rands : Nat → Nat) : TransMeta :=
  match encodeChunks data seed salt with
  | none => trans
  | some chunks =>
    let built := buildPayloads fromPk salt rands trans 1 chunks
    {built.1 with packages := built.1.packages ++ [⟨built.2, .peer seed sendHandlerAlive⟩]}

/-! ## Gets registry (`peers.rs` lines 641-676) and the inbound handlers -/

/-- `ChunkGetsEntry` (derive `Default`: all zeroes / `None`). -/
structure ChunkGetsEntry where
  restarted : ℚ
  seq_auth : Nat
  payload : Option Bytes
deriving DecidableEq, Inhabited

/-- `GetsEntry`.  The `futures : HashMap<u64, Task>` only matters through
the set of waiting `frid`s (task handles carry no data), embedded as a
list. -/
structure GetsEntry where
  pk : Option Bytes
  reassembled_at : Option ℚ
  number_of_chunks : Option Nat
  chunks : List ChunkGetsEntry
  direct_chunks : List (Nat × Bytes)
  futures : List Nat
deriving DecidableEq, Inhabited

/-- `Vec::resize_default`: truncate or extend with defaults to length
`n`. -/
def resizeDefault (l : List ChunkGetsEntry) (n : Nat) : List ChunkGetsEntry :=
  l.take n ++ List.replicate (n - l.length) default

/-- In-place modification of a vector slot (`v[i].field = …`). -/
def modifyAt {α : Type} (f : α → α) : Nat → List α → List α
  | _, [] => []
  | 0, a :: l => f a :: l
  | n + 1, a :: l => a :: modifyAt f n l

/-- The per-context state the inbound handlers touch: the gets registry
(`CbCtx::gets`), the trans registry and the two packet counters of
`PeersContext`. -/
structure PState where
  gets : List (Bytes × GetsEntry)
  trans : TransMeta
  direct_pings : Nat
  direct_chunks : Nat
deriving DecidableEq

/-- `pingʹ` (lines 543-567): enqueue a single-payload package addressed to
an endpoint.  With `pongId = some id` it is a pong echoing `id`; with
`none` it is a discovery ping with a fresh id (`rand` is the random draw
of `next_id`). -/
def ping' (ourKey : Bytes) (tr : TransMeta) (endpoint : SockAddr)
    (pongId : Option Bytes) (rand : Nat) : TransMeta :=
  match pongId with
  | some originalId =>
    {tr with packages := tr.packages ++
      [⟨[({id := originalId, fromPk := ourKey, pong := 1, salt := none,
            chunk := none}, default)], .sock endpoint⟩]}
  | none =>
    let step := MmPayload.next_id tr rand
    {step.1 with packages := step.1.packages ++
      [⟨[({id := step.2, fromPk := ourKey, pong := 0, salt := none,
            chunk := none}, default)], .sock endpoint⟩]}

/-- Lines 843-848: record the source endpoint in the sender's `Friend`
entry (idempotent insert). -/
def addFriend (tr : TransMeta) (fromPk : Bytes) (ep : SockAddr) : TransMeta :=
  {tr with friends :=
    (updateA fromPk
      (fun fr => if ep ∈ fr.endpoints then fr else {endpoints := fr.endpoints ++ [ep]})
      default tr.friends)}

/-- Lines 851-856: increment `pongs` of every outbound payload whose id
matches the pong's id (`u8` increment, hence `% 256`). -/
def registerPong (tr : TransMeta) (pongedId : Bytes) : TransMeta :=
  {tr with packages := tr.packages.map fun pkg =>
    {pkg with payloads := pkg.payloads.map fun pm =>
      if pm.1.id = pongedId then (pm.1, {pm.2 with pongs := (pm.2.pongs + 1) % 256})
      else pm}}

/-- Lines 858-884 of `incoming_ping`: copy a piggybacked chunk into the
gets registry.  Error strings are the source's. -/
def chunkStep (ourKey : Bytes) (st : PState) (mm : MmPayload) :
    PState × Except String Unit :=
  match mm.salt, mm.chunk with
  | some isalt, some ichunk =>
    if isalt.length < 2 then (st, .error "short ping salt") else
    let subjectSalt := isalt.dropLast
    let chunkIdx := isalt.getLastD 0
    if chunkIdx = 0 then (st, .error "bad chunk index") else
    if ichunk.length < 5 then (st, .error "short ping chunk") else
    let payload := ichunk.take (ichunk.length - 4)
    let incomingChecksum := beRead4 (ichunk.drop (ichunk.length - 4))
    if incomingChecksum ≠ crcChunk chunkIdx payload ourKey subjectSalt then
      (st, .error "bad ping chunk")
    else
      -- `raw_entry_mut().or_insert (…, GetsEntry::default())`
      let en := (lookupA subjectSalt st.gets).getD default
      let en := if chunkIdx = 1 then
          {en with number_of_chunks := some (payload.headD 0)} else en
      let payload := if chunkIdx = 1 then payload.tail else payload
      let n := en.number_of_chunks.getD 0
      if chunkIdx > n then
        ({st with gets := updateA subjectSalt (fun _ => en) default st.gets},
          .error "ping chunk out of bounds")
      else
        let en := {en with chunks :=
          (modifyAt (fun c => {c with payload := some payload}) (chunkIdx - 1)
            (resizeDefault en.chunks n))}
        ({st with
            gets := (updateA subjectSalt (fun _ => en) default st.gets),
            direct_chunks := st.direct_chunks + 1}, .ok ())
  | _, _ => (st, .ok ())

/-- `incoming_ping` (lines 825-887) after `bdecode`: the decoded `mm`
payload and source `(ip, port)` (already parsed; `ep = none` is the
`try_s!` ip-parse failure).  Steps in source order: `from`-length check,
ip parse, `direct_pings` counter, pong enqueue for `pong == 0`, friend
endpoint record, pong registration for `pong == 1`, chunk admission. -/
def incoming_ping (ourKey : Bytes) (st : PState) (mm : MmPayload)
    (ep : Option SockAddr) : PState × Except String Unit :=
  if mm.fromPk.length ≠ 32 then (st, .error "Wrong from length in a ping")
  else match ep with
  | none => (st, .error "bad ip")
  | some endpoint =>
    let st := {st with direct_pings := st.direct_pings + 1}
    let st := {st with trans :=
      (if mm.pong = 0 then ping' ourKey st.trans endpoint (some mm.id) 0 else st.trans)}
    let st := {st with trans := addFriend st.trans mm.fromPk endpoint}
    let st := {st with trans :=
      (if mm.pong = 1 then registerPong st.trans mm.id else st.trans)}
    chunkStep ourKey st mm

/-- The `dht_mutable_item_alert` branch of the `dht_thread` callback
(lines 991-1042): `payload0` is the bencode-decoded value (`serde_bencode`
is external; a decode failure returns before any state change), `keybuf`
the derived public key, `seq`/`auth` the item version. -/
def dhtAlert (ourKey : Bytes) (gets : List (Bytes × GetsEntry))
    (keybuf chunkSalt payload0 : Bytes) (seq : Nat) (auth : Bool) :
    List (Bytes × GetsEntry) :=
  let idx := chunkSalt.getLastD 0
  if idx = 0 then gets else
  let salt := chunkSalt.dropLast
  match lookupA salt gets with
  | none => gets
  | some en =>
    -- `.find (|en| en.0 == salt && en.1.pk == Some (keybuf))`
    if en.pk ≠ some keybuf then gets else
    if idx > en.chunks.length then gets else
    if payload0.length < 5 then gets else
    let payload := payload0.take (payload0.length - 4)
    let incomingChecksum := beRead4 (payload0.drop (payload0.length - 4))
    if incomingChecksum ≠ crcChunk idx payload ourKey salt then gets else
    let nocNew := if idx = 1 then some (payload.headD 0) else none
    let payload := if idx = 1 then payload.tail else payload
    let seqAuth := seq * 2 + if auth then 1 else 0
    let c := en.chunks.getD (idx - 1) default
    if c.payload = none ∨ seqAuth > c.seq_auth then
      updateA salt (fun _ => {en with
        chunks := modifyAt
          (fun ch => {ch with seq_auth := seqAuth, payload := some payload})
          (idx - 1) en.chunks,
        number_of_chunks := if nocNew.isSome then nocNew else en.number_of_chunks})
        default gets
    else gets

/-! ## The retransmit pass (`transmit`, lines 437-541)

Wall-clock instants (`now_float`) are `ℚ`; the `RATELIM` token bucket maps
a seed to `(last-modified, ops)`.  A pass emits direct UDP pings
(`ping`, lines 459 and 484) and DHT puts (`dht_put`, line 527); emissions
are recorded as events tagged with the package index.  Whether a `ping`
call succeeds (its bencoded payload fits the 1400-byte cap and
`lt_send_udp` does not error) is the `pingOk` oracle of the environment. -/

/-- A single emission of the retransmit pass. -/
inductive REmis where
  | ping (endpoint : SockAddr) (id : Bytes)
  | put (seed salt : Bytes)
deriving DecidableEq

/-- The `RATELIM` registry: seed → (last-modified, ops). -/
abbrev RateLim := List (Bytes × (ℚ × ℚ))

/-- Environment of one pass: the current time and the ping-success
oracle. -/
structure TransmitEnv where
  now : ℚ
  pingOk : SockAddr → MmPayload → Bool

/-- `ratelim_maintenance` (lines 291-300): decay ~10 ops per second since
the last visit, stamp the visit, return the remaining ops. -/
def ratelim_maintenance (now : ℚ) (seed : Bytes) (rl : RateLim) : ℚ × RateLim :=
  let e0 := (lookupA seed rl).getD (0, 0)
  let e1 := if e0.1 = 0 then ((now - 1 / 100 : ℚ), e0.2) else e0
  let ops := max 0 (e1.2 - (now - e1.1) * 10)
  (ops, updateA seed (fun _ => (now, ops)) (0, 0) rl)

/-- `with_ratelim (seed, |_lm, ops| {*ops += 1.; limops = *ops})`
(lines 283-289 with the increment callback of the transmit loops). -/
def bumpRatelim (now : ℚ) (seed : Bytes) (rl : RateLim) : ℚ × RateLim :=
  let e0 := (lookupA seed rl).getD (0, 0)
  let e1 := if e0.1 = 0 then ((now - 1 / 100 : ℚ), e0.2) else e0
  let e2 := (e1.1, e1.2 + 1)
  (e2.2, updateA seed (fun _ => e2) (0, 0) rl)

/-- The endpoint-recipient payload loop of `transmit` (lines 452-466):
skip delivered or exhausted payloads, ping the rest, drop pongs after one
transmission. -/
def sockLoop (env : TransmitEnv) (ep : SockAddr) :
    List (MmPayload × PayloadOutMeta) →
      List (MmPayload × PayloadOutMeta) × List REmis
  | [] => ([], [])
  | (p, m) :: rest =>
    if m.pongs ≠ 0 then
      let r := sockLoop env ep rest
      ((p, m) :: r.1, r.2)
    else if m.pings = 255 then
      let r := sockLoop env ep rest
      ((p, m) :: r.1, r.2)
    else
      let m' := if env.pingOk ep p then {m with pings := m.pings + 1} else m
      let r := sockLoop env ep rest
      ((if p.pong = 1 then r.1 else (p, m') :: r.1), .ping ep p.id :: r.2)

/-- The friend-endpoint ping loop of `transmit` (lines 479-490), inner
payload iteration for one endpoint. -/
def peerPingInner (env : TransmitEnv) (seed : Bytes) (ep : SockAddr) :
    List (MmPayload × PayloadOutMeta) → ℚ → RateLim →
      List (MmPayload × PayloadOutMeta) × ℚ × RateLim × List REmis
  | [], limops, rl => ([], limops, rl, [])
  | (p, m) :: rest, limops, rl =>
    if m.pongs ≠ 0 ∨ m.pings = 255 ∨ limops > 33 then
      let r := peerPingInner env seed ep rest limops rl
      ((p, m) :: r.1, r.2)
    else if env.pingOk ep p then
      let bumped := bumpRatelim env.now seed rl
      let r := peerPingInner env seed ep rest bumped.1 bumped.2
      ((p, {m with pings := m.pings + 1}) :: r.1, r.2.1, r.2.2.1,
        .ping ep p.id :: r.2.2.2)
    else
      let r := peerPingInner env seed ep rest limops rl
      ((p, m) :: r.1, r.2.1, r.2.2.1, .ping ep p.id :: r.2.2.2)

/-- The friend-endpoint ping loop of `transmit` (lines 477-492), outer
iteration over the friend's endpoints. -/
def peerPingOuter (env : TransmitEnv) (seed : Bytes) :
    List SockAddr → List (MmPayload × PayloadOutMeta) → ℚ → RateLim →
      List (MmPayload × PayloadOutMeta) × ℚ × RateLim × List REmis
  | [], pls, limops, rl => (pls, limops, rl, [])
  | ep :: eps, pls, limops, rl =>
    let r1 := peerPingInner env seed ep pls limops rl
    let r2 := peerPingOuter env seed eps r1.1 r1.2.1 r1.2.2.1
    (r2.1, r2.2.1, r2.2.2.1, r1.2.2.2 ++ r2.2.2.2)

/-- The DHT-put loop of `transmit` (lines 495-529): re-put a chunk when
its last put is ≥ 20 s old and the rate limit allows (≤ 10 ops, or ≤ 1 for
a repeat put).  (The `PUT_SHUTTLES` insertion is global state outside the
registries.) -/
def putLoop (env : TransmitEnv) (seed : Bytes) :
    List (MmPayload × PayloadOutMeta) → ℚ → RateLim →
      List (MmPayload × PayloadOutMeta) × RateLim × List REmis
  | [], _, rl => ([], rl, [])
  | (p, m) :: rest, limops, rl =>
    if env.now - m.dht_put_invoked < 20 ∨ limops > 10 ∨
        (m.dht_put_invoked > 0 ∧ limops > 1) then
      let r := putLoop env seed rest limops rl
      ((p, m) :: r.1, r.2)
    else
      match p.salt, p.chunk with
      | some salt, some _ =>
        let bumped := bumpRatelim env.now seed rl
        let r := putLoop env seed rest bumped.1 bumped.2
        ((p, {m with dht_put_invoked := env.now}) :: r.1, r.2.1,
          .put seed salt :: r.2.2)
      | _, _ =>
        let r := putLoop env seed rest limops rl
        ((p, m) :: r.1, r.2)

/-- One package of the retransmit pass (the body of the `for pix` loop of
`transmit`).  A peer-key package whose weak `SendHandler` no longer
upgrades is skipped entirely (`continue`, line 472), bypassing even the
empty-package removal. -/
def transmitPackage (env : TransmitEnv) (st : TransMeta × RateLim) (pix : Nat) :
    (TransMeta × RateLim) × List REmis :=
  match st.1.packages[pix]? with
  | none => (st, [])
  | some pkg =>
    match pkg.dest with
    | .sock ep =>
      let r := sockLoop env ep pkg.payloads
      let tr := if r.1 = [] then {st.1 with packages := st.1.packages.eraseIdx pix}
                else {st.1 with packages :=
                  (st.1.packages.set pix {pkg with payloads := r.1})}
      ((tr, st.2), r.2)
    | .peer seed alive =>
      if !alive then (st, [])
      else
        let m0 := ratelim_maintenance env.now seed st.2
        let r1 :=
          match lookupA seed st.1.friends with
          | some friend => peerPingOuter env seed friend.endpoints pkg.payloads m0.1 m0.2
          | none => (pkg.payloads, m0.1, m0.2, [])
        let r2 := putLoop env seed r1.1 r1.2.1 r1.2.2.1
        let tr := if r2.1 = [] then {st.1 with packages := st.1.packages.eraseIdx pix}
                  else {st.1 with packages :=
                    (st.1.packages.set pix {pkg with payloads := r2.1})}
        ((tr, r2.2.1), r1.2.2.2 ++ r2.2.2)

/-- The `for pix in (0 .. packages.len()).rev()` loop of `transmit`:
process package indices from high to low, tagging each emission with its
package index. -/
def transmitLoop (env : TransmitEnv) : Nat → TransMeta × RateLim →
    (TransMeta × RateLim) × List (Nat × REmis)
  | 0, st => (st, [])
  | pix + 1, st =>
    let r1 := transmitPackage env st pix
    let r2 := transmitLoop env pix r1.1
    (r2.1, r1.2.map (fun e => (pix, e)) ++ r2.2)

/-- `transmit` (lines 437-541): one full retransmit pass. -/
def transmit (env : TransmitEnv) (st : TransMeta × RateLim) :
    (TransMeta × RateLim) × List (Nat × REmis) :=
  transmitLoop env st.1.packages.length st

/-! ## Public API: `key` and `send` -/

/-- Modelled from the spec: `bits256::nonz` lives in the `common` crate,
which is not among the provided sources; the spec calls a key valid when
it is "non-zero" (`initialize` rejects a "zeroed key", `send` a "zeroed
peer"), so `nonz` holds when any of the 32 key bytes is non-zero. -/
def nonz (k : Bytes) : Bool := k.any (fun b => b ≠ 0)

/-- `key` (lines 1351-1355): return the stored public key.  The only
fallible steps are context resolution and the mutex lock (no counterpart
in the embedding); there is no zero-key check — the stored key is
returned as-is. -/
def key (our_public_key : Bytes) : Except String Bytes :=
  .ok our_public_key

/-- `send` (lines 1261-1281) up to the command channel: add the peer to
the friends table, then reject a zeroed peer key, else hand the
`LtCommand::Put {seed, salt, payload}` to the scheduler (returned as the
`ok` value).  The friends insert happens BEFORE the validity check. -/
def send (tr : TransMeta) (peer : Bytes) (subject payload : Bytes) :
    TransMeta × Except String (Bytes × Bytes × Bytes) :=
  let tr := {tr with friends := updateA peer (fun fr => fr) default tr.friends}
  if !nonz peer then (tr, .error "peer key is empty")
  else (tr, .ok (peer, subject, payload))

theorem crcShift_lt (v : Nat) (h : v < 2 ^ 32) : crcShift v < 2 ^ 32 := by
  unfold crcShift
  split
  · exact Nat.xor_lt_two_pow (by omega) (by norm_num)
  · omega

theorem ieeeTable_lt (i : Nat) : ieeeTable i < 2 ^ 32 := by
  unfold ieeeTable
  have h : ∀ n v, v < 2 ^ 32 → crcShift^[n] v < 2 ^ 32 := by
    intro n
    induction n with
    | zero => intro v hv; simpa using hv
    | succ n ih =>
      intro v hv
      rw [Function.iterate_succ_apply]
      exact ih _ (crcShift_lt v hv)
  exact h 8 (i % 256) (lt_of_lt_of_le (Nat.mod_lt _ (by norm_num)) (by norm_num))

theorem crcUpdate_lt (value : Nat) (bytes : Bytes) (h : value < 2 ^ 32) :
    crcUpdate value bytes < 2 ^ 32 := by
  unfold crcUpdate
  have hmask : (0xFFFFFFFF : Nat) < 2 ^ 32 := by norm_num
  have hstart : value ^^^ 0xFFFFFFFF < 2 ^ 32 := Nat.xor_lt_two_pow h hmask
  have hfold : ∀ (l : Bytes) (v : Nat), v < 2 ^ 32 →
      l.foldl (fun v b => ieeeTable ((v % 256) ^^^ (b % 256)) ^^^ v / 256) v < 2 ^ 32 := by
    intro l
    induction l with
    | nil => intro v hv; simpa using hv
    | cons b l ih =>
      intro v hv
      simp only [List.foldl_cons]
      exact ih _ (Nat.xor_lt_two_pow (ieeeTable_lt _) (by omega))
  exact Nat.xor_lt_two_pow (hfold bytes _ hstart) hmask

theorem crcChunk_lt (idx : Nat) (body seed salt : Bytes) (h : idx < 2 ^ 32) :
    crcChunk idx body seed salt < 2 ^ 32 :=
  crcUpdate_lt _ _ (crcUpdate_lt _ _ (crcUpdate_lt _ _ h))

theorem beRead4_be4 (n : Nat) (h : n < 2 ^ 32) : beRead4 (be4 n) = n := by
  simp only [be4, beRead4, List.foldl_cons, List.foldl_nil]
  omega

theorem be4_length (n : Nat) : (be4 n).length = 4 := rfl

theorem chunksOf_nil (k : Nat) : chunksOf k [] = [] := by
  rw [chunksOf]; simp

theorem chunksOf_cons (k : Nat) (l : List Nat) (hk : k ≠ 0) (hl : l ≠ []) :
    chunksOf k l = l.take k :: chunksOf k (l.drop k) := by
  rw [chunksOf]; simp [hk, hl]

theorem join_chunksOf (k : Nat) (hk : k ≠ 0) (l : List Nat) :
    (chunksOf k l).flatten = l := by
  suffices h : ∀ (n : Nat) (l : List Nat), l.length ≤ n → (chunksOf k l).flatten = l from
    h l.length l le_rfl
  intro n
  induction n with
  | zero =>
    intro l hl
    have : l = [] := List.eq_nil_of_length_eq_zero (Nat.le_zero.mp hl)
    subst this; simp [chunksOf_nil]
  | succ n ih =>
    intro l hl
    by_cases hnil : l = []
    · subst hnil; simp [chunksOf_nil]
    · rw [chunksOf_cons k l hk hnil]
      have hlen : 0 < l.length := List.length_pos.mpr hnil
      have hk' : 0 < k := Nat.pos_of_ne_zero hk
      have hdrop : (l.drop k).length ≤ n := by
        simp only [List.length_drop]; omega
      rw [List.flatten_cons, ih (l.drop k) hdrop, List.take_append_drop]

theorem length_chunksOf_le (k : Nat) (l : List Nat) :
    ∀ c ∈ chunksOf k l, c ≠ [] ∧ c.length ≤ k := by
  suffices h : ∀ (n : Nat) (l : List Nat), l.length ≤ n →
      ∀ c ∈ chunksOf k l, c ≠ [] ∧ c.length ≤ k from h l.length l le_rfl
  intro n
  induction n with
  | zero =>
    intro l hl c hc
    have : l = [] := List.eq_nil_of_length_eq_zero (Nat.le_zero.mp hl)
    subst this; simp [chunksOf_nil] at hc
  | succ n ih =>
    intro l hl c hc
    by_cases h : k = 0 ∨ l = []
    · rw [chunksOf] at hc; simp [h] at hc
    · push_neg at h
      rw [chunksOf_cons k l h.1 h.2, List.mem_cons] at hc
      have hlen : 0 < l.length := List.length_pos.mpr h.2
      have hk' : 0 < k := Nat.pos_of_ne_zero h.1
      rcases hc with hc | hc
      · subst hc
        refine ⟨?_, by simp [List.length_take]⟩
        simp only [ne_eq, List.take_eq_nil_iff]
        push_neg
        exact ⟨h.1, h.2⟩
      · have hdrop : (l.drop k).length ≤ n := by
          simp only [List.length_drop]; omega
        exact ih (l.drop k) hdrop c hc

theorem numberOfChunks_small (L : Nat) (h1 : 0 < L) (h2 : L ≤ 992) :
    numberOfChunks L = 1 := by
  unfold numberOfChunks
  by_cases h : L % 992 = 0 <;> simp [h] <;> omega

theorem numberOfChunks_step (L : Nat) (h : 992 < L) :
    numberOfChunks L = numberOfChunks (L - 992) + 1 := by
  unfold numberOfChunks
  by_cases h1 : L % 992 = 0 <;> by_cases h2 : (L - 992) % 992 = 0 <;>
    simp [h1, h2] <;> omega

theorem length_chunksOf992 (l : List Nat) (hl : l ≠ []) :
    (chunksOf 992 l).length = numberOfChunks l.length := by
  suffices h : ∀ (n : Nat) (l : List Nat), l.length ≤ n → l ≠ [] →
      (chunksOf 992 l).length = numberOfChunks l.length from h l.length l le_rfl hl
  intro n
  induction n with
  | zero =>
    intro l hl hnil
    exact absurd (List.eq_nil_of_length_eq_zero (Nat.le_zero.mp hl)) hnil
  | succ n ih =>
    intro l hl hnil
    rw [chunksOf_cons 992 l (by norm_num) hnil]
    have hlen : 0 < l.length := List.length_pos.mpr hnil
    by_cases hle : l.length ≤ 992
    · have : l.drop 992 = [] := by
        apply List.drop_eq_nil_of_le; omega
      rw [this, chunksOf_nil, numberOfChunks_small l.length hlen hle]
      rfl
    · have hdroplen : (l.drop 992).length = l.length - 992 := by
        simp [List.length_drop]
      have hdrop_le : (l.drop 992).length ≤ n := by omega
      have hdrop_ne : l.drop 992 ≠ [] := by
        intro hcon
        rw [hcon] at hdroplen
        simp at hdroplen
        omega
      rw [List.length_cons, ih (l.drop 992) hdrop_le hdrop_ne, hdroplen,
        numberOfChunks_step l.length (by omega)]

theorem chunksWithCrc_length (seed salt : Bytes) :
    ∀ (idx : Nat) (cs : List (List Nat)),
      (chunksWithCrc seed salt idx cs).length = cs.length := by
  intro idx cs
  induction cs generalizing idx with
  | nil => rfl
  | cons c cs ih => simp [chunksWithCrc, ih]

/-- The chunk-count of a successful encode, with the capacity guard made
explicit. -/
theorem encodeChunks_map_length (payload seed salt : Bytes) :
    (encodeChunks payload seed salt).map List.length =
      if numberOfChunks (payload.length + 1) > 253 then none
      else some (numberOfChunks (payload.length + 1)) := by
  simp only [encodeChunks]
  split
  · rfl
  · simp only [Option.map_some']
    rw [chunksWithCrc_length, length_chunksOf992 _ (by simp), List.length_cons]

theorem lookupA_updateA_self {α β : Type} [DecidableEq α] (k : α) (f : β → β)
    (d : β) (m : List (α × β)) :
    lookupA k (updateA k f d m) = some (f (((lookupA k m).getD d))) := by
  induction m with
  | nil => simp [lookupA, updateA]
  | cons ab m ih =>
    obtain ⟨a, b⟩ := ab
    by_cases h : a = k
    · subst h; simp [lookupA, updateA]
    · simp [lookupA, updateA, h, ih]

theorem lookupA_updateA_ne {α β : Type} [DecidableEq α] (k k' : α) (f : β → β)
    (d : β) (m : List (α × β)) (h : k' ≠ k) :
    lookupA k' (updateA k f d m) = lookupA k' m := by
  induction m with
  | nil =>
    simp only [updateA, lookupA]
    rw [if_neg (fun hc => h hc.symm)]
  | cons ab m ih =>
    obtain ⟨a, b⟩ := ab
    by_cases ha : a = k
    · subst ha
      simp only [updateA, if_pos rfl, lookupA]
      rw [if_neg (fun hc => h hc.symm), if_neg (fun hc => h hc.symm)]
    · simp only [updateA, if_neg ha, lookupA, ih]

theorem modifyAt_getElem?_ne {α : Type} (f : α → α) (i j : Nat) (l : List α)
    (h : i ≠ j) : (modifyAt f i l)[j]? = l[j]? := by
  induction l generalizing i j with
  | nil => cases i <;> simp [modifyAt]
  | cons a l ih =>
    cases i with
    | zero =>
      cases j with
      | zero => exact absurd rfl h
      | succ j => simp [modifyAt]
    | succ i =>
      cases j with
      | zero => simp [modifyAt]
      | succ j =>
        simp only [modifyAt, List.getElem?_cons_succ]
        exact ih i j (fun hc => h (by rw [hc]))

theorem modifyAt_getElem?_self {α : Type} (f : α → α) (i : Nat) (l : List α) :
    (modifyAt f i l)[i]? = l[i]?.map f := by
  induction l generalizing i with
  | nil => cases i <;> simp [modifyAt]
  | cons a l ih =>
    cases i with
    | zero => simp [modifyAt]
    | succ i => simpa [modifyAt] using ih i

theorem dropLast_append_getLastD (l : Bytes) (h : l ≠ []) :
    l.dropLast ++ [l.getLastD 0] = l := by
  induction l with
  | nil => exact absurd rfl h
  | cons a l ih =>
    cases l with
    | nil => rfl
    | cons b l =>
      have hih := ih (by simp)
      simp only [List.getLastD_cons] at hih
      simp only [List.dropLast_cons₂, List.getLastD_cons, List.cons_append, hih]

theorem chunkStep_trans_eq (ourKey : Bytes) (st : PState) (mm : MmPayload) :
    (chunkStep ourKey st mm).1.trans = st.trans := by
  unfold chunkStep
  cases mm.salt <;> cases mm.chunk <;> try rfl
  dsimp only
  repeat' first | rfl | split | dsimp only

theorem chunkStep_direct_pings_eq (ourKey : Bytes) (st : PState) (mm : MmPayload) :
    (chunkStep ourKey st mm).1.direct_pings = st.direct_pings := by
  unfold chunkStep
  cases mm.salt <;> cases mm.chunk <;> try rfl
  dsimp only
  repeat' first | rfl | split | dsimp only

theorem chunkStep_noc (ourKey : Bytes) (st : PState) (mm : MmPayload) (s : Bytes)
    (hne : (lookupA s (chunkStep ourKey st mm).1.gets).bind GetsEntry.number_of_chunks ≠
      (lookupA s st.gets).bind GetsEntry.number_of_chunks) :
    ∃ ichunk body, mm.salt = some (s ++ [1]) ∧ mm.chunk = some ichunk ∧
      verifyChunk 1 ourKey s ichunk = some body ∧
      (lookupA s (chunkStep ourKey st mm).1.gets).bind GetsEntry.number_of_chunks =
        some (body.headD 0) := by
  rcases hsalt : mm.salt with _ | isalt
  · rw [chunkStep] at hne
    cases mm.chunk <;> simp [hsalt] at hne
  rcases hchunk : mm.chunk with _ | ichunk
  · rw [chunkStep] at hne
    simp [hsalt, hchunk] at hne
  simp only [chunkStep, hsalt, hchunk] at hne ⊢
  by_cases h1 : isalt.length < 2
  · simp only [if_pos h1] at hne
    exact absurd rfl hne
  simp only [if_neg h1] at hne ⊢
  by_cases h2 : isalt.getLastD 0 = 0
  · simp only [if_pos h2] at hne
    exact absurd rfl hne
  simp only [if_neg h2] at hne ⊢
  by_cases h3 : ichunk.length < 5
  · simp only [if_pos h3] at hne
    exact absurd rfl hne
  simp only [if_neg h3] at hne ⊢
  by_cases h4 : beRead4 (ichunk.drop (ichunk.length - 4)) =
      crcChunk (isalt.getLastD 0) (ichunk.take (ichunk.length - 4)) ourKey isalt.dropLast
  · simp only [if_neg (not_ne_iff.mpr h4)] at hne ⊢
    by_cases h5 : s = isalt.dropLast
    · subst h5
      by_cases h7 : isalt.getLastD 0 = 1
      · -- chunk #1: `number_of_chunks` is set from the verified prefix byte
        refine ⟨ichunk, ichunk.take (ichunk.length - 4), ?_, rfl, ?_, ?_⟩
        · rw [← h7,
            dropLast_append_getLastD isalt (by intro hc; rw [hc] at h1; simp at h1)]
        · rw [verifyChunk, if_neg h3, if_pos (h7 ▸ h4)]
        · simp only [h7, reduceIte] at hne ⊢
          split <;>
            simp [lookupA_updateA_self, Option.getD_some]
      · -- not chunk #1: the stored `number_of_chunks` is the entry's old one
        exfalso
        simp only [if_neg h7] at hne
        rcases hlook : lookupA isalt.dropLast st.gets with _ | en
        · rw [hlook] at hne
          split at hne <;>
            simp [lookupA_updateA_self, hlook, GetsEntry.number_of_chunks] at hne <;>
            exact hne (by simp [default, Option.getD_none])
        · rw [hlook] at hne
          split at hne <;>
            simp [lookupA_updateA_self, hlook] at hne
    · -- another subject salt: the write-back does not touch it
      exfalso
      repeat' split at hne
      all_goals dsimp only at hne
      all_goals rw [lookupA_updateA_ne _ _ _ _ _ h5] at hne
      all_goals exact absurd rfl hne
  · simp only [if_pos h4] at hne
    exact absurd rfl hne

theorem dhtAlert_noc (ourKey : Bytes) (gets : List (Bytes × GetsEntry))
    (keybuf chunkSalt payload0 : Bytes) (seq : Nat) (auth : Bool) (s : Bytes)
    (hne : (lookupA s (dhtAlert ourKey gets keybuf chunkSalt payload0 seq auth)).bind
        GetsEntry.number_of_chunks ≠ (lookupA s gets).bind GetsEntry.number_of_chunks) :
    chunkSalt = s ++ [1] ∧ ∃ body,
      verifyChunk 1 ourKey s payload0 = some body ∧
      (lookupA s (dhtAlert ourKey gets keybuf chunkSalt payload0 seq auth)).bind
        GetsEntry.number_of_chunks = some (body.headD 0) := by
  unfold dhtAlert at hne ⊢
  by_cases h0 : chunkSalt.getLastD 0 = 0
  · simp only [if_pos h0] at hne
    exact absurd rfl hne
  simp only [if_neg h0] at hne ⊢
  rcases hlook : lookupA chunkSalt.dropLast gets with _ | en
  · rw [hlook] at hne
    exact absurd rfl hne
  rw [hlook] at hne
  dsimp only at hne ⊢
  by_cases hpk : en.pk = some keybuf
  · simp only [if_neg (not_ne_iff.mpr hpk)] at hne ⊢
    by_cases hidx : chunkSalt.getLastD 0 > en.chunks.length
    · simp only [if_pos hidx] at hne
      exact absurd rfl hne
    simp only [if_neg hidx] at hne ⊢
    by_cases hlen : payload0.length < 5
    · simp only [if_pos hlen] at hne
      exact absurd rfl hne
    simp only [if_neg hlen] at hne ⊢
    by_cases hcrc : beRead4 (payload0.drop (payload0.length - 4)) =
        crcChunk (chunkSalt.getLastD 0) (payload0.take (payload0.length - 4)) ourKey
          chunkSalt.dropLast
    · simp only [if_neg (not_ne_iff.mpr hcrc)] at hne ⊢
      by_cases hguard : (en.chunks.getD (chunkSalt.getLastD 0 - 1) default).payload = none ∨
          seq * 2 + (if auth then 1 else 0) >
            (en.chunks.getD (chunkSalt.getLastD 0 - 1) default).seq_auth
      · simp only [if_pos hguard] at hne ⊢
        by_cases h5 : s = chunkSalt.dropLast
        · subst h5
          by_cases h7 : chunkSalt.getLastD 0 = 1
          · refine ⟨?_, payload0.take (payload0.length - 4), ?_, ?_⟩
            · rw [← h7, dropLast_append_getLastD chunkSalt
                (by intro hc; rw [hc] at h0; simp at h0)]
            · rw [verifyChunk, if_neg hlen, if_pos (h7 ▸ hcrc)]
            · simp only [h7, reduceIte] at hne ⊢
              simp [lookupA_updateA_self]
          · exfalso
            simp only [if_neg h7] at hne
            simp [lookupA_updateA_self, hlook, Option.isSome] at hne
        · exfalso
          rw [lookupA_updateA_ne _ _ _ _ _ h5] at hne
          exact absurd rfl hne
      · simp only [if_neg hguard] at hne
        exact absurd rfl hne
    · simp only [if_pos hcrc] at hne
      exact absurd rfl hne
  · simp only [if_pos hpk] at hne
    exact absurd rfl hne

theorem transmitPackage_dropped (env : TransmitEnv) (st : TransMeta × RateLim)
    (pix : Nat) (seed : Bytes)
    (hd : (st.1.packages[pix]?).map Package.dest = some (.peer seed false)) :
    transmitPackage env st pix = (st, []) := by
  rcases Option.map_eq_some'.mp hd with ⟨pkg, hsome, hdest⟩
  unfold transmitPackage
  rw [hsome]
  dsimp only
  rw [hdest]
  rfl

theorem transmitPackage_preserves_lower (env : TransmitEnv)
    (st : TransMeta × RateLim) (pix j : Nat) (hj : j < pix) :
    (transmitPackage env st pix).1.1.packages[j]? = st.1.packages[j]? := by
  unfold transmitPackage
  rcases hp : st.1.packages[pix]? with _ | pkg
  · rfl
  dsimp only
  rcases pkg.dest with seed | ep
  case sock =>
    dsimp only
    split
    · exact List.getElem?_eraseIdx_of_lt _ _ _ hj
    · exact List.getElem?_set_ne (Nat.ne_of_gt hj)
  case peer alive =>
    dsimp only
    rcases alive with _ | _
    · rfl
    · rw [if_neg (by decide)]
      split
      · exact List.getElem?_eraseIdx_of_lt _ _ _ hj
      · exact List.getElem?_set_ne (Nat.ne_of_gt hj)

theorem transmitLoop_tags_lt (env : TransmitEnv) :
    ∀ (k : Nat) (st : TransMeta × RateLim) (e : Nat × REmis),
      e ∈ (transmitLoop env k st).2 → e.1 < k := by
  intro k
  induction k with
  | zero => intro st e he; simp [transmitLoop] at he
  | succ k ih =>
    intro st e he
    simp only [transmitLoop, List.mem_append, List.mem_map] at he
    rcases he with ⟨e0, _, rfl⟩ | he
    · omega
    · exact Nat.lt_succ_of_lt (ih _ e he)

theorem transmitLoop_dropped (env : TransmitEnv) (pix : Nat) (seed : Bytes) :
    ∀ (k : Nat) (st : TransMeta × RateLim), pix < k →
      (st.1.packages[pix]?).map Package.dest = some (.peer seed false) →
      ∀ e ∈ (transmitLoop env k st).2, e.1 ≠ pix := by
  intro k
  induction k with
  | zero => intro st hlt; omega
  | succ k ih =>
    intro st hlt hd e he
    simp only [transmitLoop, List.mem_append, List.mem_map] at he
    by_cases hk : pix = k
    · subst hk
      rw [transmitPackage_dropped env st pix seed hd] at he
      rcases he with ⟨e0, he0, rfl⟩ | he
      · simp at he0
      · exact Nat.ne_of_lt (transmitLoop_tags_lt env pix st e he)
    · rcases he with ⟨e0, _, rfl⟩ | he
      · exact fun hc => hk hc.symm
      · have hlt' : pix < k := by omega
        refine ih (transmitPackage env st k).1 hlt' ?_ e he
        rw [transmitPackage_preserves_lower env st k pix hlt']
        exact hd

theorem verifyChunk_encoded (idx : Nat) (seed salt c : Bytes) (hc : c ≠ [])
    (hidx : idx < 2 ^ 32) :
    verifyChunk idx seed salt (c ++ be4 (crcChunk idx c seed salt)) = some c := by
  have hclen : 0 < c.length := List.length_pos.mpr hc
  have hlen : (c ++ be4 (crcChunk idx c seed salt)).length = c.length + 4 := by
    simp [List.length_append, be4_length]
  unfold verifyChunk
  rw [hlen]
  have h5 : ¬(c.length + 4 < 5) := by omega
  simp only [h5, if_false]
  have htake : (c ++ be4 (crcChunk idx c seed salt)).take (c.length + 4 - 4) = c := by
    have : c.length + 4 - 4 = c.length := by omega
    rw [this, List.take_left]
  have hdrop : (c ++ be4 (crcChunk idx c seed salt)).drop (c.length + 4 - 4) =
      be4 (crcChunk idx c seed salt) := by
    have : c.length + 4 - 4 = c.length := by omega
    rw [this, List.drop_left]
  rw [htake, hdrop, beRead4_be4 _ (crcChunk_lt idx c seed salt hidx)]
  simp

theorem verifyChunks_encoded (seed salt : Bytes) :
    ∀ (cs : List (List Nat)) (idx : Nat), (∀ c ∈ cs, c ≠ []) →
      idx + cs.length ≤ 2 ^ 32 →
      verifyChunks seed salt idx (chunksWithCrc seed salt idx cs) = some cs := by
  intro cs
  induction cs with
  | nil => intro idx _ _; rfl
  | cons c cs ih =>
    intro idx hne hbound
    have hc : c ≠ [] := hne c (List.mem_cons_self c cs)
    have hidx : idx < 2 ^ 32 := by
      have := List.length_cons c cs ▸ hbound
      omega
    simp only [chunksWithCrc, verifyChunks,
      verifyChunk_encoded idx seed salt c hc hidx]
    rw [ih (idx + 1) (fun x hx => hne x (List.mem_cons_of_mem c hx))
      (by simp only [List.length_cons] at hbound; omega)]

end Peers

/-- Claim C1: for every payload, peer key and subject salt with
`len(payload) ≤ 253·992−1`, encoding the payload into chunks (prepend the
chunk-count byte, split into 992-byte bodies, append per-chunk big-endian
CRC-32) and then decoding (verify and strip each CRC, strip the count byte
from chunk #1, concatenate bodies in index order) yields exactly the
original payload. -/
theorem C1_encode_then_decode_roundtrip (payload seed salt : Peers.Bytes)
    (h : payload.length ≤ 253 * 992 - 1) :
    (Peers.encodeChunks payload seed salt).bind (Peers.decodeChunks seed salt) =
      some payload := by
  have hn253 : Peers.numberOfChunks (payload.length + 1) ≤ 253 := by
    unfold Peers.numberOfChunks
    by_cases hm : (payload.length + 1) % 992 = 0 <;> simp [hm] <;> omega
  have hdata : (Peers.numberOfChunks (payload.length + 1) :: payload) ≠ [] := by simp
  have henc : Peers.encodeChunks payload seed salt =
      some (Peers.chunksWithCrc seed salt 1
        (Peers.chunksOf 992 (Peers.numberOfChunks (payload.length + 1) :: payload))) := by
    simp only [Peers.encodeChunks]
    rw [if_neg (by omega)]
  rw [henc, Option.some_bind]
  have hne : ∀ c ∈ Peers.chunksOf 992
      (Peers.numberOfChunks (payload.length + 1) :: payload), c ≠ [] :=
    fun c hc => (Peers.length_chunksOf_le 992 _ c hc).1
  have hcslen : (Peers.chunksOf 992
      (Peers.numberOfChunks (payload.length + 1) :: payload)).length =
      Peers.numberOfChunks (payload.length + 1) := by
    rw [Peers.length_chunksOf992 _ hdata, List.length_cons]
  have hver := Peers.verifyChunks_encoded seed salt _ 1 hne (by rw [hcslen]; omega)
  have hcons : Peers.chunksOf 992 (Peers.numberOfChunks (payload.length + 1) :: payload) =
      (Peers.numberOfChunks (payload.length + 1) :: payload.take 991) ::
        Peers.chunksOf 992 (payload.drop 991) := by
    rw [Peers.chunksOf_cons 992 _ (by norm_num) hdata]
    rfl
  rw [hcons] at hver hcslen
  rw [hcons]
  simp only [Peers.decodeChunks, hver]
  rw [Peers.chunksWithCrc_length, hcslen, if_pos rfl,
    Peers.join_chunksOf 992 (by norm_num) (payload.drop 991), List.take_append_drop]

/-- Witness for C1 at a concrete three-byte payload. -/
theorem C1_witness :
    ([1, 2, 3] : Peers.Bytes).length ≤ 253 * 992 - 1 ∧
    (Peers.encodeChunks [1, 2, 3] (List.replicate 32 7) [9]).bind
      (Peers.decodeChunks (List.replicate 32 7) [9]) = some [1, 2, 3] :=
  ⟨by decide, C1_encode_then_decode_roundtrip [1, 2, 3] (List.replicate 32 7) [9] (by decide)⟩

/-- Counterexample to claim C2: a payload of exactly 992 bytes does NOT
encode to 1 chunk — the prepended count byte makes the data 993 bytes
long, so the encoder produces 2 chunks. -/
theorem C2_counterexample :
    (Peers.encodeChunks (List.replicate 992 0) (List.replicate 32 7) [9]).map
      List.length ≠ some 1 := by
  rw [Peers.encodeChunks_map_length]
  simp only [List.length_replicate]
  decide

/-- Claim C2 as amended: the chunk encoder maps a payload of 991 bytes to
1 chunk, a payload of 992 bytes to 2 chunks, and a payload of 993 bytes to
2 chunks (for any peer key and subject salt), because the count byte is
prepended before the 992-byte split. -/
theorem C2_chunk_size_boundary (p1 p2 p3 seed salt : Peers.Bytes)
    (h1 : p1.length = 991) (h2 : p2.length = 992) (h3 : p3.length = 993) :
    (Peers.encodeChunks p1 seed salt).map List.length = some 1 ∧
    (Peers.encodeChunks p2 seed salt).map List.length = some 2 ∧
    (Peers.encodeChunks p3 seed salt).map List.length = some 2 := by
  rw [Peers.encodeChunks_map_length, Peers.encodeChunks_map_length,
    Peers.encodeChunks_map_length, h1, h2, h3]
  refine ⟨?_, ?_, ?_⟩ <;> decide

/-- Witness for C2 (amended) at concrete payloads of the three boundary
sizes. -/
theorem C2_witness :
    (Peers.encodeChunks (List.replicate 991 0) [7] [9]).map List.length = some 1 ∧
    (Peers.encodeChunks (List.replicate 992 0) [7] [9]).map List.length = some 2 ∧
    (Peers.encodeChunks (List.replicate 993 0) [7] [9]).map List.length = some 2 :=
  C2_chunk_size_boundary (List.replicate 991 0) (List.replicate 992 0)
    (List.replicate 993 0) [7] [9] (by rw [List.length_replicate])
    (by rw [List.length_replicate]) (by rw [List.length_replicate])

/-- Claim C8: a payload needing more than 253 chunks
(`⌈(len+1)/992⌉ > 253`) is rejected by `split_and_put` before anything is
enqueued: the trans registry is returned unchanged, so no package, no DHT
put and no ping can ever be emitted for that payload. -/
theorem C8_overlarge_payload_rejected (tr : Peers.TransMeta)
    (fromPk seed salt data : Peers.Bytes) (alive : Bool) (rands : Nat → Nat)
    (h : (data.length + 1 + 991) / 992 > 253) :
    Peers.split_and_put tr fromPk seed salt data alive rands = tr := by
  have henc : Peers.encodeChunks data seed salt = none := by
    unfold Peers.encodeChunks Peers.numberOfChunks
    rw [if_pos]
    by_cases hm : (data.length + 1) % 992 = 0 <;> simp [hm] <;> omega
  unfold Peers.split_and_put
  rw [henc]

/-- Witness for C8: the spec's 300000-byte scenario leaves a concrete
empty registry untouched. -/
theorem C8_witness :
    Peers.split_and_put ⟨[], [], 0⟩ [1] [2] [3] (List.replicate 300000 0) true
      (fun _ => 0) = ⟨[], [], 0⟩ :=
  C8_overlarge_payload_rejected ⟨[], [], 0⟩ [1] [2] [3] (List.replicate 300000 0)
    true (fun _ => 0) (by rw [List.length_replicate]; norm_num)

/-- Claim C5: an incoming ping that decodes with a 32-byte `from` and has
`pong == 0` enqueues exactly one pong package in the trans registry,
addressed to the source socket, holding a single payload with `pong = 1`
and the incoming ping's `id`; an incoming ping with `pong == 1` enqueues
nothing (the packages are only re-mapped to register the pong). -/
theorem C5_pong_for_ping (ourKey : Peers.Bytes) (st : Peers.PState)
    (mm : Peers.MmPayload) (ep : Peers.SockAddr)
    (hfrom : mm.fromPk.length = 32) :
    (mm.pong = 0 →
      (Peers.incoming_ping ourKey st mm (some ep)).1.trans.packages =
        st.trans.packages ++
          [⟨[({id := mm.id, fromPk := ourKey, pong := 1, salt := none,
               chunk := none}, default)], .sock ep⟩]) ∧
    (mm.pong = 1 →
      (Peers.incoming_ping ourKey st mm (some ep)).1.trans.packages =
        (Peers.registerPong st.trans mm.id).packages) := by
  constructor
  · intro h0
    simp only [Peers.incoming_ping, hfrom, h0, ne_eq, not_true_eq_false,
      if_false, reduceIte, Peers.chunkStep_trans_eq]
    rfl
  · intro h1
    simp only [Peers.incoming_ping, hfrom, h1, ne_eq, not_true_eq_false,
      if_false, reduceIte, Peers.chunkStep_trans_eq]
    rfl

/-- Witness for C5 at a concrete ping (`pong = 0`) and a concrete pong
(`pong = 1`). -/
theorem C5_witness :
    (((⟨[3], List.replicate 32 1, 0, none, none⟩ : Peers.MmPayload).pong = 0 →
      (Peers.incoming_ping [9] ⟨[], ⟨[], [], 0⟩, 0, 0⟩
          ⟨[3], List.replicate 32 1, 0, none, none⟩
          (some ⟨"1.2.3.4", 7⟩)).1.trans.packages =
        ([] : List Peers.Package) ++
          [⟨[({id := [3], fromPk := [9], pong := 1, salt := none,
               chunk := none}, default)], .sock ⟨"1.2.3.4", 7⟩⟩]) ∧
     ((⟨[3], List.replicate 32 1, 0, none, none⟩ : Peers.MmPayload).pong = 1 →
      (Peers.incoming_ping [9] ⟨[], ⟨[], [], 0⟩, 0, 0⟩
          ⟨[3], List.replicate 32 1, 0, none, none⟩
          (some ⟨"1.2.3.4", 7⟩)).1.trans.packages =
        (Peers.registerPong ⟨[], [], 0⟩ [3]).packages)) :=
  C5_pong_for_ping [9] ⟨[], ⟨[], [], 0⟩, 0, 0⟩
    ⟨[3], List.replicate 32 1, 0, none, none⟩ ⟨"1.2.3.4", 7⟩
    (by rw [List.length_replicate])

/-- Counterexample to claim C6: the same pong (same `id`, same source
endpoint) processed twice increments `pongs` to 2, although only one
distinct endpoint (recorded in the friends table) ever sent it. -/
theorem C6_counterexample :
    (Peers.incoming_ping [9]
        (Peers.incoming_ping [9]
          ⟨[], ⟨[], [⟨[(⟨[3], [9], 0, none, none⟩, ⟨0, 0, 0⟩)],
            .peer (List.replicate 32 2) true⟩], 0⟩, 0, 0⟩
          ⟨[3], List.replicate 32 1, 1, none, none⟩ (some ⟨"1.2.3.4", 7⟩)).1
        ⟨[3], List.replicate 32 1, 1, none, none⟩ (some ⟨"1.2.3.4", 7⟩)).1.trans.packages =
      [⟨[(⟨[3], [9], 0, none, none⟩, ⟨0, 0, 2⟩)], .peer (List.replicate 32 2) true⟩] ∧
    (Peers.lookupA (List.replicate 32 1)
      (Peers.incoming_ping [9]
        (Peers.incoming_ping [9]
          ⟨[], ⟨[], [⟨[(⟨[3], [9], 0, none, none⟩, ⟨0, 0, 0⟩)],
            .peer (List.replicate 32 2) true⟩], 0⟩, 0, 0⟩
          ⟨[3], List.replicate 32 1, 1, none, none⟩ (some ⟨"1.2.3.4", 7⟩)).1
        ⟨[3], List.replicate 32 1, 1, none, none⟩ (some ⟨"1.2.3.4", 7⟩)).1.trans.friends).map
      (fun fr => fr.endpoints.length) = some 1 := by
  constructor <;> rfl

/-- Claim C6 as amended: each processed pong with a matching `id`
increments `pongs_received` of every matching outbound payload by exactly
one (mod 256, the `u8` width), regardless of the source endpoint — the
counter counts pong packets, not distinct endpoints, so two pongs from one
endpoint drive it to 2. -/
theorem C6_pongs_count_packets (ourKey : Peers.Bytes) (st : Peers.PState)
    (mm : Peers.MmPayload) (ep : Peers.SockAddr)
    (hfrom : mm.fromPk.length = 32) (hpong : mm.pong = 1)
    (pix i : Nat) (pkg : Peers.Package) (pm : Peers.MmPayload × Peers.PayloadOutMeta)
    (hpkg : st.trans.packages[pix]? = some pkg)
    (hpm : pkg.payloads[i]? = some pm) :
    ∃ pkg',
      (Peers.incoming_ping ourKey st mm (some ep)).1.trans.packages[pix]? = some pkg' ∧
      pkg'.payloads[i]? = some
        (if pm.1.id = mm.id then (pm.1, {pm.2 with pongs := (pm.2.pongs + 1) % 256})
         else pm) := by
  have hpacks : (Peers.incoming_ping ourKey st mm (some ep)).1.trans.packages =
      (Peers.registerPong st.trans mm.id).packages := by
    simp only [Peers.incoming_ping, hfrom, hpong, ne_eq, not_true_eq_false,
      if_false, reduceIte, Peers.chunkStep_trans_eq]
    rfl
  rw [hpacks]
  refine ⟨{pkg with payloads := pkg.payloads.map fun pm =>
    (if pm.1.id = mm.id then (pm.1, {pm.2 with pongs := (pm.2.pongs + 1) % 256})
     else pm)}, ?_, ?_⟩
  · simp only [Peers.registerPong, List.getElem?_map, hpkg, Option.map_some']
  · simp only [List.getElem?_map, hpm, Option.map_some']

/-- Claim C7: for every package addressed to a peer key whose weak
`SendHandler` can no longer be upgraded, a retransmit pass emits no direct
ping and no DHT put for that package (every emission of the pass is tagged
with a different package index). -/
theorem C7_dropped_handler_no_emissions (env : Peers.TransmitEnv)
    (st : Peers.TransMeta × Peers.RateLim) (pix : Nat) (seed : Peers.Bytes)
    (hd : (st.1.packages[pix]?).map Peers.Package.dest =
      some (.peer seed false)) :
    ∀ e ∈ (Peers.transmit env st).2, e.1 ≠ pix := by
  have hlt : pix < st.1.packages.length := by
    rcases Option.map_eq_some'.mp hd with ⟨pkg, hsome, _⟩
    exact (List.getElem?_eq_some.mp hsome).1
  exact Peers.transmitLoop_dropped env pix seed st.1.packages.length st hlt hd

/-- Witness for C7: a pass over a live endpoint package (index 0) and a
dropped peer-key package (index 1) pings for index 0 only; the theorem
applied to that concrete emission gives `0 ≠ 1`. -/
theorem C7_witness :
    (((⟨[], [⟨[(⟨[3], [9], 0, none, none⟩, ⟨0, 0, 0⟩)], .sock ⟨"1.2.3.4", 7⟩⟩,
        ⟨[(⟨[4], [9], 0, none, none⟩, ⟨0, 0, 0⟩)],
          .peer (List.replicate 32 2) false⟩], 0⟩ :
        Peers.TransMeta).packages[1]?).map Peers.Package.dest =
      some (.peer (List.replicate 32 2) false)) ∧
    ((0, Peers.REmis.ping ⟨"1.2.3.4", 7⟩ [3]) ∈
      (Peers.transmit ⟨100, fun _ _ => true⟩
        (⟨[], [⟨[(⟨[3], [9], 0, none, none⟩, ⟨0, 0, 0⟩)], .sock ⟨"1.2.3.4", 7⟩⟩,
          ⟨[(⟨[4], [9], 0, none, none⟩, ⟨0, 0, 0⟩)],
            .peer (List.replicate 32 2) false⟩], 0⟩, [])).2) ∧
    (0, Peers.REmis.ping ⟨"1.2.3.4", 7⟩ [3]).1 ≠ 1 :=
  ⟨rfl, by decide,
    C7_dropped_handler_no_emissions ⟨100, fun _ _ => true⟩
      (⟨[], [⟨[(⟨[3], [9], 0, none, none⟩, ⟨0, 0, 0⟩)], .sock ⟨"1.2.3.4", 7⟩⟩,
        ⟨[(⟨[4], [9], 0, none, none⟩, ⟨0, 0, 0⟩)],
          .peer (List.replicate 32 2) false⟩], 0⟩, []) 1 (List.replicate 32 2)
      (by decide) (0, Peers.REmis.ping ⟨"1.2.3.4", 7⟩ [3]) (by decide)⟩

/-- Counterexample to claim C3: a CRC-valid chunk #1 whose prefix byte is
255 is admitted by `incoming_ping` and sets `number_of_chunks = 255`,
outside the claimed range [1, 253] — the code never checks the range. -/
theorem C3_counterexample :
    (Peers.lookupA [5]
      (Peers.incoming_ping [9] ⟨[], ⟨[], [], 0⟩, 0, 0⟩
        ⟨[3], List.replicate 32 1, 1, some [5, 1],
          some ([255] ++ Peers.be4 (Peers.crcChunk 1 [255] [9] [5]))⟩
        (some ⟨"1.2.3.4", 7⟩)).1.gets).bind Peers.GetsEntry.number_of_chunks =
      some 255 ∧ ¬(255 ≤ 253) := by
  constructor
  · rfl
  · decide

/-- Claim C3 as amended: on both admission paths (direct-ping chunks and
DHT mutable-item alerts) `number_of_chunks` changes only when a CRC-valid
chunk #1 is admitted, and its new value is exactly that chunk's leading
prefix byte — the code never constrains the value to [1, 253] (0, 254 and
255 are all storable). -/
theorem C3_noc_only_from_verified_chunk1 (ourKey : Peers.Bytes) :
    (∀ (st : Peers.PState) (mm : Peers.MmPayload) (ep : Option Peers.SockAddr)
       (s : Peers.Bytes),
      (Peers.lookupA s (Peers.incoming_ping ourKey st mm ep).1.gets).bind
          Peers.GetsEntry.number_of_chunks ≠
        (Peers.lookupA s st.gets).bind Peers.GetsEntry.number_of_chunks →
      ∃ ichunk body, mm.salt = some (s ++ [1]) ∧ mm.chunk = some ichunk ∧
        Peers.verifyChunk 1 ourKey s ichunk = some body ∧
        (Peers.lookupA s (Peers.incoming_ping ourKey st mm ep).1.gets).bind
          Peers.GetsEntry.number_of_chunks = some (body.headD 0)) ∧
    (∀ (gets : List (Peers.Bytes × Peers.GetsEntry))
       (keybuf chunkSalt payload0 : Peers.Bytes) (seq : Nat) (auth : Bool)
       (s : Peers.Bytes),
      (Peers.lookupA s (Peers.dhtAlert ourKey gets keybuf chunkSalt payload0 seq auth)).bind
          Peers.GetsEntry.number_of_chunks ≠
        (Peers.lookupA s gets).bind Peers.GetsEntry.number_of_chunks →
      chunkSalt = s ++ [1] ∧ ∃ body,
        Peers.verifyChunk 1 ourKey s payload0 = some body ∧
        (Peers.lookupA s
          (Peers.dhtAlert ourKey gets keybuf chunkSalt payload0 seq auth)).bind
          Peers.GetsEntry.number_of_chunks = some (body.headD 0)) := by
  constructor
  · intro st mm ep s hne
    by_cases hfrom : mm.fromPk.length ≠ 32
    · simp only [Peers.incoming_ping, if_pos hfrom] at hne
      exact absurd rfl hne
    · match ep with
      | none =>
        simp only [Peers.incoming_ping, if_neg hfrom] at hne
        exact absurd rfl hne
      | some endpoint =>
        simp only [Peers.incoming_ping, if_neg hfrom] at hne ⊢
        exact Peers.chunkStep_noc ourKey _ mm s hne
  · intro gets keybuf chunkSalt payload0 seq auth s hne
    exact Peers.dhtAlert_noc ourKey gets keybuf chunkSalt payload0 seq auth s hne

/-- Witness for C3 (amended), the ping path at the 255-prefix chunk. -/
theorem C3_witness :
    ∃ ichunk body,
      (⟨[3], List.replicate 32 1, 1, some [5, 1],
        some ([255] ++ Peers.be4 (Peers.crcChunk 1 [255] [9] [5]))⟩ :
          Peers.MmPayload).salt = some ([5] ++ [1]) ∧
      (⟨[3], List.replicate 32 1, 1, some [5, 1],
        some ([255] ++ Peers.be4 (Peers.crcChunk 1 [255] [9] [5]))⟩ :
          Peers.MmPayload).chunk = some ichunk ∧
      Peers.verifyChunk 1 [9] [5] ichunk = some body ∧
      (Peers.lookupA [5]
        (Peers.incoming_ping [9] ⟨[], ⟨[], [], 0⟩, 0, 0⟩
          ⟨[3], List.replicate 32 1, 1, some [5, 1],
            some ([255] ++ Peers.be4 (Peers.crcChunk 1 [255] [9] [5]))⟩
          (some ⟨"1.2.3.4", 7⟩)).1.gets).bind Peers.GetsEntry.number_of_chunks =
        some (body.headD 0) :=
  (C3_noc_only_from_verified_chunk1 [9]).1 ⟨[], ⟨[], [], 0⟩, 0, 0⟩
    ⟨[3], List.replicate 32 1, 1, some [5, 1],
      some ([255] ++ Peers.be4 (Peers.crcChunk 1 [255] [9] [5]))⟩
    (some ⟨"1.2.3.4", 7⟩) [5] (by decide)

/-- Counterexample to claim C4: from the empty state, a first direct-ping
chunk populates the slot for subject salt `[5]` with payload `[9]`
(version `seq_auth = 0`); a second direct-ping chunk carrying payload
`[4]` — with no version at all, so certainly not a strictly greater
`seq_auth` — overwrites it: the direct-ping admission path has no
version check. -/
theorem C4_counterexample :
    (Peers.lookupA [5]
      (Peers.incoming_ping [9] ⟨[], ⟨[], [], 0⟩, 0, 0⟩
        ⟨[3], List.replicate 32 1, 1, some [5, 1],
          some ([1, 9] ++ Peers.be4 (Peers.crcChunk 1 [1, 9] [9] [5]))⟩
        (some ⟨"1.2.3.4", 7⟩)).1.gets).map Peers.GetsEntry.chunks =
      some [⟨0, 0, some [9]⟩] ∧
    (Peers.lookupA [5]
      (Peers.incoming_ping [9]
        (Peers.incoming_ping [9] ⟨[], ⟨[], [], 0⟩, 0, 0⟩
          ⟨[3], List.replicate 32 1, 1, some [5, 1],
            some ([1, 9] ++ Peers.be4 (Peers.crcChunk 1 [1, 9] [9] [5]))⟩
          (some ⟨"1.2.3.4", 7⟩)).1
        ⟨[3], List.replicate 32 1, 1, some [5, 1],
          some ([1, 4] ++ Peers.be4 (Peers.crcChunk 1 [1, 4] [9] [5]))⟩
        (some ⟨"1.2.3.4", 7⟩)).1.gets).map Peers.GetsEntry.chunks =
      some [⟨0, 0, some [4]⟩] := by
  set_option maxRecDepth 8000 in
  constructor <;> decide

/-- Claim C4 as amended: only the DHT mutable-item admission path is
monotonic in `seq_auth` — there a populated chunk slot is replaced only by
an item with strictly greater `seq_auth`; the direct-ping path overwrites
the slot payload unconditionally. -/
theorem C4_dht_seq_auth_monotonic (ourKey : Peers.Bytes)
    (gets : List (Peers.Bytes × Peers.GetsEntry))
    (keybuf chunkSalt payload0 : Peers.Bytes) (seq : Nat) (auth : Bool)
    (s : Peers.Bytes) (en en' : Peers.GetsEntry) (i : Nat)
    (c c' : Peers.ChunkGetsEntry)
    (hen : Peers.lookupA s gets = some en)
    (hen' : Peers.lookupA s
      (Peers.dhtAlert ourKey gets keybuf chunkSalt payload0 seq auth) = some en')
    (hc : en.chunks[i]? = some c) (hc' : en'.chunks[i]? = some c') :
    c' = c ∨ c.payload = none ∨ c'.seq_auth > c.seq_auth := by
  have hsame : Peers.lookupA s
      (Peers.dhtAlert ourKey gets keybuf chunkSalt payload0 seq auth) =
        Peers.lookupA s gets → c' = c := by
    intro hu
    rw [hu, hen] at hen'
    cases hen'
    rw [hc] at hc'
    exact (Option.some.inj hc').symm
  by_cases h0 : chunkSalt.getLastD 0 = 0
  · exact Or.inl (hsame (by simp only [Peers.dhtAlert]; rw [if_pos h0]))
  rcases hlook : Peers.lookupA chunkSalt.dropLast gets with _ | en0
  · exact Or.inl (hsame (by simp only [Peers.dhtAlert, hlook]; rw [if_neg h0]))
  have hred : Peers.dhtAlert ourKey gets keybuf chunkSalt payload0 seq auth =
      (if en0.pk ≠ some keybuf then gets else
       if chunkSalt.getLastD 0 > en0.chunks.length then gets else
       if payload0.length < 5 then gets else
       if Peers.beRead4 (payload0.drop (payload0.length - 4)) ≠
           Peers.crcChunk (chunkSalt.getLastD 0)
             (payload0.take (payload0.length - 4)) ourKey chunkSalt.dropLast then gets
       else
         if (en0.chunks.getD (chunkSalt.getLastD 0 - 1) default).payload = none ∨
             seq * 2 + (if auth then 1 else 0) >
               (en0.chunks.getD (chunkSalt.getLastD 0 - 1) default).seq_auth then
           Peers.updateA chunkSalt.dropLast (fun _ => {en0 with
             chunks := Peers.modifyAt
               (fun ch => {ch with
                 seq_auth := seq * 2 + (if auth then 1 else 0),
                 payload := some (if chunkSalt.getLastD 0 = 1 then
                   (payload0.take (payload0.length - 4)).tail
                   else payload0.take (payload0.length - 4))})
               (chunkSalt.getLastD 0 - 1) en0.chunks,
             number_of_chunks := if (if chunkSalt.getLastD 0 = 1 then
                 some ((payload0.take (payload0.length - 4)).headD 0)
                 else none).isSome then
               (if chunkSalt.getLastD 0 = 1 then
                 some ((payload0.take (payload0.length - 4)).headD 0) else none)
               else en0.number_of_chunks})
             default gets
         else gets) := by
    simp only [Peers.dhtAlert, hlook]
    rw [if_neg h0]
  by_cases hpk : en0.pk ≠ some keybuf
  · exact Or.inl (hsame (by rw [hred, if_pos hpk]))
  by_cases hidx : chunkSalt.getLastD 0 > en0.chunks.length
  · exact Or.inl (hsame (by rw [hred, if_neg hpk, if_pos hidx]))
  by_cases hlen : payload0.length < 5
  · exact Or.inl (hsame (by rw [hred, if_neg hpk, if_neg hidx, if_pos hlen]))
  by_cases hcrc : Peers.beRead4 (payload0.drop (payload0.length - 4)) ≠
      Peers.crcChunk (chunkSalt.getLastD 0) (payload0.take (payload0.length - 4))
        ourKey chunkSalt.dropLast
  · exact Or.inl (hsame (by rw [hred, if_neg hpk, if_neg hidx, if_neg hlen, if_pos hcrc]))
  by_cases hguard : (en0.chunks.getD (chunkSalt.getLastD 0 - 1) default).payload = none ∨
      seq * 2 + (if auth then 1 else 0) >
        (en0.chunks.getD (chunkSalt.getLastD 0 - 1) default).seq_auth
  · -- the slot is actually updated
    by_cases h5 : s = chunkSalt.dropLast
    · subst h5
      have heq0 : en0 = en := by
        rw [hlook] at hen
        exact Option.some.inj hen
      subst heq0
      rw [hred, if_neg hpk, if_neg hidx, if_neg hlen, if_neg hcrc, if_pos hguard,
        Peers.lookupA_updateA_self] at hen'
      cases hen'
      by_cases hslot : i = chunkSalt.getLastD 0 - 1
      · subst hslot
        rw [Peers.modifyAt_getElem?_self, hc] at hc'
        cases hc'
        have hcgetd : en0.chunks.getD (chunkSalt.getLastD 0 - 1) default = c := by
          rw [List.getD_eq_getElem?_getD, hc]
          rfl
        rw [hcgetd] at hguard
        rcases hguard with hnone | hgt
        · exact Or.inr (Or.inl hnone)
        · exact Or.inr (Or.inr hgt)
      · rw [Peers.modifyAt_getElem?_ne _ _ _ _ (fun hc2 => hslot hc2.symm), hc] at hc'
        exact Or.inl (Option.some.inj hc').symm
    · refine Or.inl (hsame ?_)
      rw [hred, if_neg hpk, if_neg hidx, if_neg hlen, if_neg hcrc, if_pos hguard]
      exact Peers.lookupA_updateA_ne _ _ _ _ _ h5
  · exact Or.inl (hsame (by
      rw [hred, if_neg hpk, if_neg hidx, if_neg hlen, if_neg hcrc, if_neg hguard]))

set_option maxRecDepth 8000 in
/-- Witness for C4 (amended): a concrete mutable-item alert with
`seq_auth = 11` replacing a slot populated at version 2. -/
theorem C4_witness :
    (⟨0, 11, some [7]⟩ : Peers.ChunkGetsEntry) = ⟨0, 2, some [9]⟩ ∨
    (⟨0, 2, some [9]⟩ : Peers.ChunkGetsEntry).payload = none ∨
    (⟨0, 11, some [7]⟩ : Peers.ChunkGetsEntry).seq_auth >
      (⟨0, 2, some [9]⟩ : Peers.ChunkGetsEntry).seq_auth :=
  C4_dht_seq_auth_monotonic [9]
    [([5], ⟨some [8], none, some 1, [⟨0, 2, some [9]⟩], [], []⟩)]
    [8] [5, 1] ([7, 7] ++ Peers.be4 (Peers.crcChunk 1 [7, 7] [9] [5])) 5 true
    [5] ⟨some [8], none, some 1, [⟨0, 2, some [9]⟩], [], []⟩
    ⟨some [8], none, some 7, [⟨0, 11, some [7]⟩], [], []⟩ 0
    ⟨0, 2, some [9]⟩ ⟨0, 11, some [7]⟩ rfl (by decide) rfl rfl

/-- Witness for C6 (amended) at a concrete pong matching a concrete
outbound payload. -/
theorem C6_witness :
    ∃ pkg',
      (Peers.incoming_ping [9]
        ⟨[], ⟨[], [⟨[(⟨[3], [9], 0, none, none⟩, ⟨0, 0, 0⟩)],
          .peer (List.replicate 32 2) true⟩], 0⟩, 0, 0⟩
        ⟨[3], List.replicate 32 1, 1, none, none⟩
        (some ⟨"1.2.3.4", 7⟩)).1.trans.packages[0]? = some pkg' ∧
      pkg'.payloads[0]? = some
        (if (⟨[3], [9], 0, none, none⟩ : Peers.MmPayload).id =
            (⟨[3], List.replicate 32 1, 1, none, none⟩ : Peers.MmPayload).id then
          ((⟨[3], [9], 0, none, none⟩ : Peers.MmPayload),
            {(⟨0, 0, 0⟩ : Peers.PayloadOutMeta) with pongs := ((0 : Nat) + 1) % 256})
         else (⟨[3], [9], 0, none, none⟩, ⟨0, 0, 0⟩)) :=
  C6_pongs_count_packets [9]
    ⟨[], ⟨[], [⟨[(⟨[3], [9], 0, none, none⟩, ⟨0, 0, 0⟩)],
      .peer (List.replicate 32 2) true⟩], 0⟩, 0, 0⟩
    ⟨[3], List.replicate 32 1, 1, none, none⟩ ⟨"1.2.3.4", 7⟩
    (by rw [List.length_replicate]) rfl 0 0 _ _ rfl rfl

/-- Counterexample to claim C9: with the stored key still all-zero
(`initialize` never ran), `key` does not return a "not yet initialized"
error — it returns the zeroed key as a value. -/
theorem C9_counterexample :
    Peers.key (List.replicate 32 0) = .ok (List.replicate 32 0) := rfl

/-- Claim C9 as amended: `key` returns the stored local public key
unconditionally — there is no initialization check, so before
`initialize` it returns the all-zero key as a value instead of an
error. -/
theorem C9_key_returns_stored_key (k : Peers.Bytes) :
    Peers.key k = .ok k := rfl

/-- Claim C10: `send` with an all-zero peer key returns an error, yet it
has already inserted an entry for that zeroed key into the friends table
of the trans registry (the insert at line 1266 precedes the `nonz` check
at line 1269). -/
theorem C10_send_zero_peer_still_inserts_friend (tr : Peers.TransMeta)
    (subject payload peer : Peers.Bytes) (hz : ∀ b ∈ peer, b = 0) :
    (Peers.send tr peer subject payload).2 = .error "peer key is empty" ∧
    (Peers.lookupA peer (Peers.send tr peer subject payload).1.friends).isSome =
      true := by
  have hnz : Peers.nonz peer = false := by
    simp only [Peers.nonz, List.any_eq_false]
    intro b hb
    simp [hz b hb]
  constructor
  · simp only [Peers.send, hnz]
    rfl
  · simp only [Peers.send, hnz]
    rw [if_pos (by decide)]
    simp [Peers.lookupA_updateA_self]

/-- Witness for C10 at the all-zero 32-byte peer key. -/
theorem C10_witness :
    (Peers.send ⟨[], [], 0⟩ (List.replicate 32 0) [5] [7]).2 =
      .error "peer key is empty" ∧
    (Peers.lookupA (List.replicate 32 0)
      (Peers.send ⟨[], [], 0⟩ (List.replicate 32 0) [5] [7]).1.friends).isSome =
      true :=
  C10_send_zero_peer_still_inserts_friend ⟨[], [], 0⟩ [5] [7]
    (List.replicate 32 0) (by intro b hb; exact List.eq_of_mem_replicate hb)
